import Mathlib

/-!
Verification of the concurrent admission-control subsystem of RepoLM.

The definitions below are a shallow embedding of the Python sources:
  * `src/concurrency.py` — `JobQueue` (bounded pool + FIFO overflow queue)
    and `IPLimitContext` (per-IP bounded counters);
  * `src/services/llm.py` — `CircuitBreaker` and the retry loop of `call_llm`;
  * `src/db.py` — the `job_status` table operations `create_job`,
    `update_job`, `get_job`.

Python `int` values that may go negative are embedded as `Int`; timestamps
(Python floats from `time.time()`) are embedded as `ℚ`.
-/

namespace RepoLM

/-! ## JobQueue (src/concurrency.py) -/

/-- The status component of the pair returned by `JobQueue.submit`. -/
inductive SubmitStatus where
  | running
  | queued
  | rejected
deriving DecidableEq, Repr

/-- State of one `JobQueue` instance.

`maxWorkers` and `maxQueueDepth` embed `self._max_workers` and the module
constant `MAX_QUEUE_DEPTH` (50 in the source); `activeCount` embeds
`self._active_count` (a Python `int`); `queue` embeds the key sequence of
the `OrderedDict` `self._queue` (the stored fn/args play no role in the
claims).  `inFlight` is a ghost field counting tasks that have been handed
to the thread pool (`self._pool.submit(self._wrap, ...)`) and whose `_wrap`
has not yet run `_on_complete`; it lets the step relation say that a
completion can only happen for a task that is actually in flight. -/
structure JobQueue where
  maxWorkers : Nat
  maxQueueDepth : Nat
  activeCount : Int
  queue : List String
  inFlight : Nat
deriving DecidableEq, Repr

/-- A fresh queue, as built by `JobQueue.__init__`. -/
def JobQueue.init (w d : Nat) : JobQueue :=
  { maxWorkers := w, maxQueueDepth := d, activeCount := 0, queue := [], inFlight := 0 }

/-- `JobQueue.submit`.  The Python guard is
`util = active/max_workers if max_workers else 1.0; if util < 0.8`.
For `max_workers > 0` the float comparison `active/max_workers < 0.8`
coincides with the exact rational test `5*active < 4*max_workers` (both
sides of the strict inequality are rationals with denominators far below
the 2^53 range where IEEE double rounding could flip a strict comparison,
and `0.8` rounds to the same double as `4.0/5.0`); for `max_workers = 0`
the guard is false.  Enqueuing assigns into the `OrderedDict`: an already
present `job_id` keeps its position and the length is unchanged. -/
def JobQueue.submit (q : JobQueue) (jobId : String) :
    (SubmitStatus × Option Nat) × JobQueue :=
  if 0 < q.maxWorkers ∧ 5 * q.activeCount < 4 * (q.maxWorkers : Int) then
    ((.running, none),
     { q with activeCount := q.activeCount + 1, inFlight := q.inFlight + 1 })
  else if q.queue.length < q.maxQueueDepth then
    let queue' := if jobId ∈ q.queue then q.queue else q.queue ++ [jobId]
    ((.queued, some queue'.length), { q with queue := queue' })
  else
    ((.rejected, none), q)

/-- `JobQueue._on_complete`, run by `_wrap` when a task finishes: decrement
`active_count`; if the queue is non-empty, pop the oldest entry
(`popitem(last=False)`), re-increment, and hand the popped job to the pool.
Returns the dispatched job id (if any) with the new state. -/
def JobQueue.onComplete (q : JobQueue) : Option String × JobQueue :=
  match q.queue with
  | [] => (none, { q with activeCount := q.activeCount - 1, inFlight := q.inFlight - 1 })
  | nextId :: rest =>
      (some nextId,
       { q with activeCount := q.activeCount - 1 + 1, queue := rest,
                inFlight := q.inFlight - 1 + 1 })

/-- `JobQueue.get_position`: 1-based index of `job_id` in the queue, `none`
if not queued (the Python loop `for i, qid in enumerate(...)`). -/
def JobQueue.get_position (q : JobQueue) (jobId : String) : Option Nat :=
  (q.queue.findIdx? (· == jobId)).map (· + 1)

/-- `JobQueue.cancel`: delete a queued entry, reporting whether it was
present. -/
def JobQueue.cancel (q : JobQueue) (jobId : String) : Bool × JobQueue :=
  if jobId ∈ q.queue then (true, { q with queue := q.queue.erase jobId })
  else (false, q)

/-- One interleaving step of a `JobQueue`: a `submit` call, the completion
of an in-flight task (which runs `_on_complete`), or a `cancel` call. -/
inductive JobQueue.Step : JobQueue → JobQueue → Prop where
  | submit (q : JobQueue) (jobId : String) : Step q (q.submit jobId).2
  | complete (q : JobQueue) (h : 0 < q.inFlight) : Step q q.onComplete.2
  | cancel (q : JobQueue) (jobId : String) : Step q (q.cancel jobId).2

/-- States reachable from a fresh queue by any interleaving of submits,
completions and cancels. -/
def JobQueue.Reachable (w d : Nat) (q : JobQueue) : Prop :=
  Relation.ReflTransGen JobQueue.Step (JobQueue.init w d) q

/-- The inductive invariant of a `JobQueue` with parameters `w`, `d`:
the configuration fields are constant, `active_count` counts exactly the
in-flight tasks, it never exceeds `max_workers`, the queue is only
non-empty at ≥ 0.8 utilization, and queued ids are distinct. -/
def JobQueue.Inv (w d : Nat) (q : JobQueue) : Prop :=
  q.maxWorkers = w ∧ q.maxQueueDepth = d ∧
  q.activeCount = (q.inFlight : Int) ∧
  q.activeCount ≤ (w : Int) ∧
  (q.queue ≠ [] → 4 * (w : Int) ≤ 5 * q.activeCount) ∧
  q.queue.Nodup

theorem JobQueue.inv_init (w d : Nat) : JobQueue.Inv w d (JobQueue.init w d) := by
  simp [JobQueue.Inv, JobQueue.init]

theorem JobQueue.inv_step {w d : Nat} {q q' : JobQueue}
    (hinv : JobQueue.Inv w d q) (hstep : JobQueue.Step q q') :
    JobQueue.Inv w d q' := by
  obtain ⟨hw, hd, hact, hle, hqa, hnd⟩ := hinv
  cases hstep with
  | submit jobId =>
      by_cases hrun : 0 < q.maxWorkers ∧ 5 * q.activeCount < 4 * (q.maxWorkers : Int)
      · have hq0 : q.queue = [] := by
          by_contra hne
          have h1 := hqa hne
          rw [hw] at hrun
          omega
        simp only [JobQueue.submit, if_pos hrun]
        refine ⟨hw, hd, ?_, ?_, ?_, ?_⟩
        · simp [hact]
        · rw [hw] at hrun
          show q.activeCount + 1 ≤ (w : Int)
          omega
        · simp [hq0]
        · simpa using hnd
      · simp only [JobQueue.submit, if_neg hrun]
        by_cases hlen : q.queue.length < q.maxQueueDepth
        · simp only [if_pos hlen]
          have hutil : 4 * (w : Int) ≤ 5 * q.activeCount := by
            rw [hw] at hrun
            push_neg at hrun
            rcases Nat.eq_zero_or_pos w with h0 | hpos
            · rw [hact, h0]
              push_cast
              omega
            · have h2 := hrun hpos
              omega
          by_cases hmem : jobId ∈ q.queue
          · exact ⟨hw, hd, hact, hle, fun _ => hutil, by simpa [hmem] using hnd⟩
          · refine ⟨hw, hd, hact, hle, fun _ => hutil, ?_⟩
            simp only [if_neg hmem]
            exact List.Nodup.append hnd (List.nodup_singleton jobId)
              (by simpa using hmem)
        · simp only [if_neg hlen]
          exact ⟨hw, hd, hact, hle, hqa, hnd⟩
  | complete h =>
      have h1 : 1 ≤ q.inFlight := h
      match hq : q.queue with
      | [] =>
          simp only [JobQueue.onComplete, hq]
          refine ⟨hw, hd, ?_, ?_, by simp [hq], by simp⟩
          · show q.activeCount - 1 = ((q.inFlight - 1 : Nat) : Int)
            omega
          · show q.activeCount - 1 ≤ (w : Int)
            omega
      | nextId :: rest =>
          rw [hq] at hqa hnd
          simp only [JobQueue.onComplete, hq]
          refine ⟨hw, hd, ?_, ?_, ?_, ?_⟩
          · show q.activeCount - 1 + 1 = ((q.inFlight - 1 + 1 : Nat) : Int)
            omega
          · show q.activeCount - 1 + 1 ≤ (w : Int)
            omega
          · intro hne
            simpa using hqa (by simp)
          · simpa using hnd.of_cons
  | cancel jobId =>
      by_cases hmem : jobId ∈ q.queue
      · simp only [JobQueue.cancel, if_pos hmem]
        refine ⟨hw, hd, hact, hle, ?_, hnd.erase jobId⟩
        intro hne
        refine hqa ?_
        intro h0
        rw [h0] at hne
        simp [List.erase] at hne
      · simp only [JobQueue.cancel, if_neg hmem]
        exact ⟨hw, hd, hact, hle, hqa, hnd⟩

theorem JobQueue.inv_of_reachable {w d : Nat} {q : JobQueue}
    (h : JobQueue.Reachable w d q) : JobQueue.Inv w d q := by
  induction h with
  | refl => exact JobQueue.inv_init w d
  | tail _ hstep ih => exact JobQueue.inv_step ih hstep

theorem findIdx_beq_of_split (l₁ l₂ : List String) (e : String) (he : e ∉ l₁) :
    (l₁ ++ e :: l₂).findIdx? (· == e) = some l₁.length := by
  induction l₁ with
  | nil => simp [List.findIdx?_cons]
  | cons a t ih =>
      have ha : (a == e) = false := by
        simp only [List.mem_cons, not_or] at he
        exact beq_eq_false_iff_ne.mpr (fun hae => he.1 hae.symm)
      have ht : e ∉ t := by
        simp only [List.mem_cons, not_or] at he
        exact he.2
      simp [List.findIdx?_cons, ha, ih ht]

/-- The 1-based position reported by `get_position`, read off a
decomposition of the queue: the element after a prefix `l₁` it does not
occur in has position `l₁.length + 1`. -/
theorem JobQueue.get_position_of_split {q : JobQueue} {l₁ l₂ : List String}
    {e : String} (hq : q.queue = l₁ ++ e :: l₂) (he : e ∉ l₁) :
    q.get_position e = some (l₁.length + 1) := by
  unfold JobQueue.get_position
  rw [hq, findIdx_beq_of_split l₁ l₂ e he]
  rfl

/-- C1 counterexample.  On a pool with `max_workers = 1`, submit a running
job `j0`, then queue `a` and `b`; re-submitting the already queued id `a`
hits the `queued` branch, but the `OrderedDict` assignment does not append
`a` at the tail: the queue is unchanged, and the returned value `2`
(`len(queue)` after the assignment) is not `a`'s 1-based position, which is
still `1`. -/
theorem C1_submit_duplicate_counterexample :
    (((((JobQueue.init 1 50).submit "j0").2.submit "a").2.submit "b").2.queue
        = ["a", "b"]) ∧
    ((((((JobQueue.init 1 50).submit "j0").2.submit "a").2.submit "b").2.submit
        "a").1 = (SubmitStatus.queued, some 2)) ∧
    ((((((JobQueue.init 1 50).submit "j0").2.submit "a").2.submit "b").2.submit
        "a").2.queue = ["a", "b"]) ∧
    ((((((JobQueue.init 1 50).submit "j0").2.submit "a").2.submit "b").2.submit
        "a").2.get_position "a" = some 1) := by
  decide

/-- C1 (amended with the freshness precondition the counterexample forces):
for a `submit` of a job id that is not already queued, on a pool with
`max_workers = M > 0`: if `active_count/M < 0.8` it increments
`active_count`, leaves the queue unchanged and returns `("running", None)`;
otherwise if the queue length is below the depth limit it appends the job
at the tail and returns `("queued", p)` with `p` the queue length after the
append, which is the job's 1-based position; otherwise it returns
`("rejected", None)` and changes nothing. -/
theorem C1_submit_cases (q : JobQueue) (jobId : String)
    (hfresh : jobId ∉ q.queue) (hM : 0 < q.maxWorkers) :
    (5 * q.activeCount < 4 * (q.maxWorkers : Int) →
      (q.submit jobId).1 = (SubmitStatus.running, none) ∧
      (q.submit jobId).2.activeCount = q.activeCount + 1 ∧
      (q.submit jobId).2.queue = q.queue) ∧
    (4 * (q.maxWorkers : Int) ≤ 5 * q.activeCount →
      q.queue.length < q.maxQueueDepth →
      (q.submit jobId).1 = (SubmitStatus.queued, some (q.queue.length + 1)) ∧
      (q.submit jobId).2.queue = q.queue ++ [jobId] ∧
      (q.submit jobId).2.get_position jobId = some (q.queue.length + 1) ∧
      (q.submit jobId).2.activeCount = q.activeCount) ∧
    (4 * (q.maxWorkers : Int) ≤ 5 * q.activeCount →
      ¬ q.queue.length < q.maxQueueDepth →
      (q.submit jobId).1 = (SubmitStatus.rejected, none) ∧
      (q.submit jobId).2 = q) := by
  refine ⟨?_, ?_, ?_⟩
  · intro hutil
    simp [JobQueue.submit, if_pos (And.intro hM hutil)]
  · intro hutil hlen
    have hnr : ¬ (0 < q.maxWorkers ∧ 5 * q.activeCount < 4 * (q.maxWorkers : Int)) := by
      rintro ⟨-, hlt⟩
      omega
    refine ⟨?_, ?_, ?_, ?_⟩
    · simp [JobQueue.submit, if_neg hnr, if_pos hlen, hfresh]
    · simp [JobQueue.submit, if_neg hnr, if_pos hlen, hfresh]
    · have hq' : (q.submit jobId).2.queue = q.queue ++ jobId :: [] := by
        simp [JobQueue.submit, if_neg hnr, if_pos hlen, hfresh]
      exact JobQueue.get_position_of_split hq' hfresh
    · simp [JobQueue.submit, if_neg hnr, if_pos hlen]
  · intro hutil hlen
    have hnr : ¬ (0 < q.maxWorkers ∧ 5 * q.activeCount < 4 * (q.maxWorkers : Int)) := by
      rintro ⟨-, hlt⟩
      omega
    simp [JobQueue.submit, if_neg hnr, if_neg hlen]

/-- C1 witness: a state with `max_workers = 2`, one active job and an empty
queue exercises all three branches of the amended statement (the first on
this state; the other two on saturated variants of it). -/
theorem C1_submit_cases_witness :
    (((JobQueue.init 2 1).submit "j0").2.submit "x").1 = (SubmitStatus.running, none) ∧
    ((JobQueue.mk 2 1 2 [] 2).submit "x").1 = (SubmitStatus.queued, some 1) ∧
    ((JobQueue.mk 2 1 2 ["y"] 2).submit "x").1 = (SubmitStatus.rejected, none) := by
  refine ⟨?_, ?_, ?_⟩
  · exact ((C1_submit_cases (((JobQueue.init 2 1).submit "j0").2) "x"
      (by decide) (by decide)).1 (by decide)).1
  · exact ((C1_submit_cases (JobQueue.mk 2 1 2 [] 2) "x"
      (by decide) (by decide)).2.1 (by decide) (by decide)).1
  · exact ((C1_submit_cases (JobQueue.mk 2 1 2 ["y"] 2) "x"
      (by decide) (by decide)).2.2 (by decide) (by decide)).1

/-- C2: on a pool with `max_workers = W ≥ 1`, for any interleaving of
`submit` calls, task completions and cancels starting from a fresh queue,
`active_count` never exceeds `W`. -/
theorem C2_active_le_max_workers (w d : Nat) (hw : 1 ≤ w) (q : JobQueue)
    (h : JobQueue.Reachable w d q) : q.activeCount ≤ (w : Int) :=
  (JobQueue.inv_of_reachable h).2.2.2.1

/-- C2 witness: a concrete three-event trace on a pool with one worker. -/
theorem C2_active_le_max_workers_witness :
    ((JobQueue.init 1 0).submit "a").2.onComplete.2.activeCount ≤ ((1 : Nat) : Int) :=
  C2_active_le_max_workers 1 0 (by decide) _
    (Relation.ReflTransGen.tail
      (Relation.ReflTransGen.single (JobQueue.Step.submit (JobQueue.init 1 0) "a"))
      (JobQueue.Step.complete (((JobQueue.init 1 0).submit "a").2) (by decide)))

/-- C3: in every reachable state, when a completion runs with a non-empty
queue, the job dispatched in that same step is the head of the queue — the
oldest queued slot, whose reported position is 1 — and while the queue is
non-empty no submitted job is serviced immediately (`submit` never returns
`"running"`), so no newcomer overtakes the queued jobs. -/
theorem C3_fifo_no_starvation (w d : Nat) (q : JobQueue)
    (h : JobQueue.Reachable w d q) :
    (∀ j rest, q.queue = j :: rest →
      q.onComplete.1 = some j ∧ q.onComplete.2.queue = rest ∧
      q.get_position j = some 1) ∧
    (q.queue ≠ [] → ∀ newId, ((q.submit newId).1).1 ≠ SubmitStatus.running) := by
  obtain ⟨hw, hd, hact, hle, hqa, hnd⟩ := JobQueue.inv_of_reachable h
  constructor
  · intro j rest hq
    refine ⟨?_, ?_, ?_⟩
    · simp [JobQueue.onComplete, hq]
    · simp [JobQueue.onComplete, hq]
    · exact JobQueue.get_position_of_split
        (show q.queue = [] ++ j :: rest by simpa using hq) (by simp)
  · intro hne newId
    have hutil := hqa hne
    have hnr : ¬ (0 < q.maxWorkers ∧ 5 * q.activeCount < 4 * (q.maxWorkers : Int)) := by
      rintro ⟨hpos, hlt⟩
      rw [hw] at hpos hlt
      omega
    by_cases hlen : q.queue.length < q.maxQueueDepth
    · simp [JobQueue.submit, if_neg hnr, if_pos hlen]
    · simp [JobQueue.submit, if_neg hnr, if_neg hlen]

/-- C3 witness: pool with one worker, one running job and queue `["a"]`:
the completion dispatches `a` (position 1) and a fresh submit is not
serviced immediately. -/
theorem C3_fifo_no_starvation_witness :
    ((((JobQueue.init 1 50).submit "r").2.submit "a").2.onComplete.1 = some "a") ∧
    (((((JobQueue.init 1 50).submit "r").2.submit "a").2.submit "x").1.1
      ≠ SubmitStatus.running) := by
  have h3 := C3_fifo_no_starvation 1 50 ((((JobQueue.init 1 50).submit "r").2.submit "a").2)
    (Relation.ReflTransGen.tail
      (Relation.ReflTransGen.single (JobQueue.Step.submit (JobQueue.init 1 50) "r"))
      (JobQueue.Step.submit (((JobQueue.init 1 50).submit "r").2) "a"))
  exact ⟨(h3.1 "a" [] (by decide)).1, h3.2 (by decide) "x"⟩

theorem not_mem_prefix_of_nodup {l₁ l₂ : List String} {e : String}
    (h : (l₁ ++ e :: l₂).Nodup) : e ∉ l₁ := by
  rw [List.nodup_append] at h
  exact fun he => h.2.2 he (by simp)

/-- The queue after a `submit` either is unchanged or has the fresh id
appended at the tail. -/
theorem JobQueue.submit_queue_cases (q : JobQueue) (newId : String) :
    (q.submit newId).2.queue = q.queue ∨
    ((q.submit newId).2.queue = q.queue ++ [newId] ∧ newId ∉ q.queue) := by
  unfold JobQueue.submit
  by_cases hrun : 0 < q.maxWorkers ∧ 5 * q.activeCount < 4 * (q.maxWorkers : Int)
  · left; simp [if_pos hrun]
  · by_cases hlen : q.queue.length < q.maxQueueDepth
    · by_cases hmem : newId ∈ q.queue
      · left; simp [if_neg hrun, if_pos hlen, hmem]
      · right; simp [if_neg hrun, if_pos hlen, hmem]
    · left; simp [if_neg hrun, if_neg hlen]

/-- C9 counterexample.  Reach the queue `["a","b","c"]` (one worker, one
running job), then cancel the middle job `b`: job `c`'s position drops from
3 to 2, although the head `a` was not dequeued — no completion ran and `a`
is still at the front.  So an operation other than dequeuing the head does
change a queued job's position. -/
theorem C9_cancel_shifts_positions_counterexample :
    ((((((JobQueue.init 1 50).submit "r").2.submit "a").2.submit "b").2.submit
        "c").2.queue = ["a", "b", "c"]) ∧
    ((((((JobQueue.init 1 50).submit "r").2.submit "a").2.submit "b").2.submit
        "c").2.get_position "c" = some 3) ∧
    (((((((JobQueue.init 1 50).submit "r").2.submit "a").2.submit "b").2.submit
        "c").2.cancel "b").2.queue = ["a", "c"]) ∧
    (((((((JobQueue.init 1 50).submit "r").2.submit "a").2.submit "b").2.submit
        "c").2.cancel "b").2.get_position "c" = some 2) := by
  decide

/-- C9 (amended): in every reachable state, positions are consistent with
enqueue order (a job enqueued earlier has a strictly smaller 1-based
position), and a queued job's position changes only when an entry ahead of
it is removed: `submit` never changes a queued job's position; dispatching
the head on completion decreases every remaining position by exactly one;
`cancel` of a job leaves the positions of jobs ahead of it unchanged and
decreases the positions of jobs behind it by exactly one. -/
theorem C9_position_order_and_frame (w d : Nat) (q : JobQueue)
    (h : JobQueue.Reachable w d q) :
    (∀ l₁ a l₂ b l₃, q.queue = l₁ ++ a :: (l₂ ++ b :: l₃) →
      q.get_position a = some (l₁.length + 1) ∧
      q.get_position b = some (l₁.length + l₂.length + 2)) ∧
    (∀ newId l₁ e l₂, q.queue = l₁ ++ e :: l₂ →
      q.get_position e = some (l₁.length + 1) ∧
      (q.submit newId).2.get_position e = some (l₁.length + 1)) ∧
    (∀ j l₁ e l₂, q.queue = j :: (l₁ ++ e :: l₂) →
      q.get_position e = some (l₁.length + 2) ∧
      q.onComplete.2.get_position e = some (l₁.length + 1)) ∧
    (∀ x l₁ l₂, q.queue = l₁ ++ x :: l₂ →
      (q.cancel x).2.queue = l₁ ++ l₂ ∧
      (∀ m₁ e m₂, l₁ = m₁ ++ e :: m₂ →
        q.get_position e = some (m₁.length + 1) ∧
        (q.cancel x).2.get_position e = some (m₁.length + 1)) ∧
      (∀ m₁ e m₂, l₂ = m₁ ++ e :: m₂ →
        q.get_position e = some (l₁.length + m₁.length + 2) ∧
        (q.cancel x).2.get_position e = some (l₁.length + m₁.length + 1))) := by
  obtain ⟨hw, hd, hact, hle, hqa, hnd⟩ := JobQueue.inv_of_reachable h
  refine ⟨?_, ?_, ?_, ?_⟩
  · intro l₁ a l₂ b l₃ hq
    have hq2 : q.queue = (l₁ ++ a :: l₂) ++ b :: l₃ := by rw [hq]; simp
    refine ⟨JobQueue.get_position_of_split hq
      (not_mem_prefix_of_nodup (hq ▸ hnd)), ?_⟩
    rw [JobQueue.get_position_of_split hq2 (not_mem_prefix_of_nodup (hq2 ▸ hnd))]
    have : (l₁ ++ a :: l₂).length + 1 = l₁.length + l₂.length + 2 := by
      simp only [List.length_append, List.length_cons]
      omega
    rw [this]
  · intro newId l₁ e l₂ hq
    have he : e ∉ l₁ := not_mem_prefix_of_nodup (hq ▸ hnd)
    refine ⟨JobQueue.get_position_of_split hq he, ?_⟩
    rcases JobQueue.submit_queue_cases q newId with hc | ⟨hc, _⟩
    · exact JobQueue.get_position_of_split (hc.trans hq) he
    · have hq' : (q.submit newId).2.queue = l₁ ++ e :: (l₂ ++ [newId]) := by
        rw [hc, hq]; simp
      exact JobQueue.get_position_of_split hq' he
  · intro j l₁ e l₂ hq
    have hq1 : q.queue = (j :: l₁) ++ e :: l₂ := by rw [hq]; simp
    have he1 : e ∉ j :: l₁ := not_mem_prefix_of_nodup (hq1 ▸ hnd)
    have he : e ∉ l₁ := fun hm => he1 (List.mem_cons_of_mem j hm)
    have hq' : q.onComplete.2.queue = l₁ ++ e :: l₂ := by
      simp [JobQueue.onComplete, hq]
    refine ⟨?_, JobQueue.get_position_of_split hq' he⟩
    rw [JobQueue.get_position_of_split hq1 he1]
    rfl
  · intro x l₁ l₂ hq
    have hnd' : (l₁ ++ x :: l₂).Nodup := hq ▸ hnd
    have hx : x ∉ l₁ := not_mem_prefix_of_nodup hnd'
    have hmem : x ∈ q.queue := by rw [hq]; simp
    have hq' : (q.cancel x).2.queue = l₁ ++ l₂ := by
      simp only [JobQueue.cancel, if_pos hmem]
      rw [hq, List.erase_append_right _ hx, List.erase_cons_head]
    refine ⟨hq', ?_, ?_⟩
    · intro m₁ e m₂ hl₁
      have hqe : q.queue = m₁ ++ e :: (m₂ ++ x :: l₂) := by rw [hq, hl₁]; simp
      have he : e ∉ m₁ := not_mem_prefix_of_nodup (hqe ▸ hnd)
      have hqe' : (q.cancel x).2.queue = m₁ ++ e :: (m₂ ++ l₂) := by
        rw [hq', hl₁]; simp
      exact ⟨JobQueue.get_position_of_split hqe he,
        JobQueue.get_position_of_split hqe' he⟩
    · intro m₁ e m₂ hl₂
      have hqe : q.queue = (l₁ ++ x :: m₁) ++ e :: m₂ := by rw [hq, hl₂]; simp
      have he : e ∉ l₁ ++ x :: m₁ := not_mem_prefix_of_nodup (hqe ▸ hnd)
      have hqe' : (q.cancel x).2.queue = (l₁ ++ m₁) ++ e :: m₂ := by
        rw [hq', hl₂]; simp
      have he' : e ∉ l₁ ++ m₁ := by
        intro hm
        rcases List.mem_append.mp hm with hm1 | hm1
        · exact he (List.mem_append.mpr (Or.inl hm1))
        · exact he (List.mem_append.mpr (Or.inr (List.mem_cons_of_mem x hm1)))
      constructor
      · rw [JobQueue.get_position_of_split hqe he]
        have : (l₁ ++ x :: m₁).length + 1 = l₁.length + m₁.length + 2 := by
          simp only [List.length_append, List.length_cons]
          omega
        rw [this]
      · rw [JobQueue.get_position_of_split hqe' he']
        have : (l₁ ++ m₁).length + 1 = l₁.length + m₁.length + 1 := by
          simp only [List.length_append]
        rw [this]

/-- C9 witness: on the reachable queue `["a","b","c"]`, `a` is ahead of
`c`; submitting `x` keeps `b` at position 2; completing dispatches the head
and moves `b` from 2 to 1; cancelling `c` (behind `b`) keeps `b` at 2 while
cancelling `a` (ahead) would move it to 1. -/
theorem C9_position_order_and_frame_witness :
    (((((((JobQueue.init 1 50).submit "r").2.submit "a").2.submit "b").2.submit
        "c").2.get_position "a" = some 1) ∧
     ((((((JobQueue.init 1 50).submit "r").2.submit "a").2.submit "b").2.submit
        "c").2.get_position "c" = some 3)) ∧
    ((((((((JobQueue.init 1 50).submit "r").2.submit "a").2.submit "b").2.submit
        "c").2.submit "x").2.get_position "b" = some 2) ∧
    ((((((JobQueue.init 1 50).submit "r").2.submit "a").2.submit "b").2.submit
        "c").2.onComplete.2.get_position "b" = some 1) ∧
    (((((((JobQueue.init 1 50).submit "r").2.submit "a").2.submit "b").2.submit
        "c").2.cancel "c").2.get_position "b" = some 2)) := by
  have hr : JobQueue.Reachable 1 50
      ((((((JobQueue.init 1 50).submit "r").2.submit "a").2.submit "b").2.submit
        "c").2) :=
    Relation.ReflTransGen.tail
      (Relation.ReflTransGen.tail
        (Relation.ReflTransGen.tail
          (Relation.ReflTransGen.single (JobQueue.Step.submit (JobQueue.init 1 50) "r"))
          (JobQueue.Step.submit _ "a"))
        (JobQueue.Step.submit _ "b"))
      (JobQueue.Step.submit _ "c")
  have h9 := C9_position_order_and_frame 1 50 _ hr
  refine ⟨?_, ?_, ?_, ?_⟩
  · have := h9.1 [] "a" ["b"] "c" [] (by decide)
    exact ⟨this.1, this.2⟩
  · exact (h9.2.1 "x" ["a"] "b" ["c"] (by decide)).2
  · exact (h9.2.2.1 "a" [] "b" ["c"] (by decide)).2
  · exact ((h9.2.2.2 "c" ["a", "b"] [] (by decide)).2.1 ["a"] "b" [] (by decide)).2

/-! ## CircuitBreaker (src/services/llm.py) -/

/-- State of the circuit breaker.  Timestamps (`time.time()` floats) are
embedded as rationals; `is_open`, `record_success` and `record_failure`
take the current time explicitly where the Python reads the clock. -/
structure CircuitBreaker where
  failure_count : Nat
  failure_threshold : Nat
  cooldown : ℚ
  open_until : ℚ
  total_calls : Nat
  total_errors : Nat
  latencies : List ℚ
deriving DecidableEq, Repr

/-- `CircuitBreaker.__init__(failure_threshold, cooldown_seconds)`. -/
def CircuitBreaker.init (threshold : Nat) (cooldown : ℚ) : CircuitBreaker :=
  { failure_count := 0, failure_threshold := threshold, cooldown := cooldown,
    open_until := 0, total_calls := 0, total_errors := 0, latencies := [] }

/-- `CircuitBreaker.is_open`: true while `open_until > time.time()`. -/
def CircuitBreaker.is_open (cb : CircuitBreaker) (now : ℚ) : Bool :=
  cb.open_until > now

/-- `CircuitBreaker.record_success(latency)`: reset the consecutive-failure
counter, count the call, append the latency and keep the last 100. -/
def CircuitBreaker.record_success (cb : CircuitBreaker) (latency : ℚ) : CircuitBreaker :=
  let ls := cb.latencies ++ [latency]
  { cb with failure_count := 0, total_calls := cb.total_calls + 1,
            latencies := if ls.length > 100 then ls.drop (ls.length - 100) else ls }

/-- `CircuitBreaker.record_failure()`: increment the counters; once the
consecutive-failure count reaches the threshold, set
`open_until = now + cooldown`.  The failure count is not reset. -/
def CircuitBreaker.record_failure (cb : CircuitBreaker) (now : ℚ) : CircuitBreaker :=
  let cb' := { cb with failure_count := cb.failure_count + 1,
                       total_errors := cb.total_errors + 1,
                       total_calls := cb.total_calls + 1 }
  if cb'.failure_count ≥ cb.failure_threshold then
    { cb' with open_until := now + cb.cooldown }
  else cb'

/-- A sequence of `record_failure` calls at the given times. -/
def CircuitBreaker.record_failure_seq (cb : CircuitBreaker) (ts : List ℚ) : CircuitBreaker :=
  ts.foldl (fun b t => b.record_failure t) cb

theorem CircuitBreaker.record_failure_count (cb : CircuitBreaker) (t : ℚ) :
    (cb.record_failure t).failure_count = cb.failure_count + 1 ∧
    (cb.record_failure t).failure_threshold = cb.failure_threshold ∧
    (cb.record_failure t).cooldown = cb.cooldown := by
  by_cases hth : cb.failure_count + 1 ≥ cb.failure_threshold <;>
    simp [CircuitBreaker.record_failure, hth]

theorem CircuitBreaker.record_failure_seq_count (ts : List ℚ) (cb : CircuitBreaker) :
    (cb.record_failure_seq ts).failure_count = cb.failure_count + ts.length ∧
    (cb.record_failure_seq ts).failure_threshold = cb.failure_threshold ∧
    (cb.record_failure_seq ts).cooldown = cb.cooldown := by
  induction ts generalizing cb with
  | nil => simp [CircuitBreaker.record_failure_seq]
  | cons t rest ih =>
      have h1 := CircuitBreaker.record_failure_count cb t
      have h2 := ih (cb.record_failure t)
      refine ⟨?_, ?_, ?_⟩
      · show (CircuitBreaker.record_failure_seq (cb.record_failure t) rest).failure_count = _
        rw [h2.1, h1.1, List.length_cons]
        omega
      · show (CircuitBreaker.record_failure_seq (cb.record_failure t) rest).failure_threshold = _
        rw [h2.2.1, h1.2.1]
      · show (CircuitBreaker.record_failure_seq (cb.record_failure t) rest).cooldown = _
        rw [h2.2.2, h1.2.2]

theorem CircuitBreaker.record_failure_seq_open_until (ts : List ℚ) (cb : CircuitBreaker)
    (tlast : ℚ) (hcount : cb.failure_count + ts.length = cb.failure_threshold)
    (hlast : ts.getLast? = some tlast) :
    (cb.record_failure_seq ts).open_until = tlast + cb.cooldown := by
  induction ts generalizing cb with
  | nil => simp at hlast
  | cons t rest ih =>
      match rest, hlast with
      | [], hlast =>
          simp only [List.getLast?_singleton, Option.some.injEq] at hlast
          subst hlast
          simp only [List.length_cons, List.length_nil] at hcount
          show (cb.record_failure t).open_until = t + cb.cooldown
          unfold CircuitBreaker.record_failure
          have hge : cb.failure_count + 1 ≥ cb.failure_threshold := by omega
          simp [hge]
      | r :: rs, hlast =>
          have hlast' : (r :: rs).getLast? = some tlast := by
            rwa [List.getLast?_cons_cons] at hlast
          have hcount' : (cb.record_failure t).failure_count + (r :: rs).length
              = (cb.record_failure t).failure_threshold := by
            have h1 := CircuitBreaker.record_failure_count cb t
            rw [h1.1, h1.2.1]
            simp only [List.length_cons] at hcount ⊢
            omega
          have hcool : (cb.record_failure t).cooldown = cb.cooldown :=
            (CircuitBreaker.record_failure_count cb t).2.2
          show (CircuitBreaker.record_failure_seq (cb.record_failure t) (r :: rs)).open_until = _
          rw [ih (cb.record_failure t) hcount' hlast', hcool]

/-- C4: starting from `consecutive_failures = 0`, after `threshold ≥ 1`
consecutive `record_failure()` calls (the last at time `t`) the counter
equals `threshold` — it is not reset when the circuit opens —
`open_until = t + cooldown`, `is_open` is true exactly while
`now < open_until` (so true right after opening when the cooldown is
positive, and false once `cooldown` seconds have elapsed), and a single
`record_success(latency)` resets the counter to 0. -/
theorem C4_circuit_breaker (cb : CircuitBreaker) (ts : List ℚ) (t : ℚ)
    (h0 : cb.failure_count = 0) (hn : 1 ≤ cb.failure_threshold)
    (hlen : ts.length = cb.failure_threshold) (hlast : ts.getLast? = some t) :
    (cb.record_failure_seq ts).failure_count = cb.failure_threshold ∧
    (cb.record_failure_seq ts).open_until = t + cb.cooldown ∧
    (∀ now, (cb.record_failure_seq ts).is_open now = decide (now < t + cb.cooldown)) ∧
    (0 < cb.cooldown → (cb.record_failure_seq ts).is_open t = true) ∧
    (cb.record_failure_seq ts).is_open (t + cb.cooldown) = false ∧
    (∀ l, ((cb.record_failure_seq ts).record_success l).failure_count = 0) := by
  have hcnt := CircuitBreaker.record_failure_seq_count ts cb
  have hou := CircuitBreaker.record_failure_seq_open_until ts cb t (by omega) hlast
  have hopen : ∀ now, (cb.record_failure_seq ts).is_open now
      = decide (now < t + cb.cooldown) := by
    intro now
    rw [CircuitBreaker.is_open, hou]
  refine ⟨by omega, hou, hopen, ?_, ?_, ?_⟩
  · intro hc
    rw [hopen t]
    simpa using by linarith
  · rw [hopen (t + cb.cooldown)]
    simp
  · intro l
    simp [CircuitBreaker.record_success]

/-- C4 witness: the default breaker (threshold 5, cooldown 60) after five
failures, the last at time 10. -/
theorem C4_circuit_breaker_witness :
    ((CircuitBreaker.init 5 60).record_failure_seq [1, 2, 3, 4, 10]).failure_count = 5 ∧
    ((CircuitBreaker.init 5 60).record_failure_seq [1, 2, 3, 4, 10]).open_until = 10 + 60 ∧
    ((CircuitBreaker.init 5 60).record_failure_seq [1, 2, 3, 4, 10]).is_open 10 = true ∧
    ((CircuitBreaker.init 5 60).record_failure_seq [1, 2, 3, 4, 10]).is_open (10 + 60) = false ∧
    (((CircuitBreaker.init 5 60).record_failure_seq [1, 2, 3, 4, 10]).record_success 1).failure_count = 0 := by
  have h := C4_circuit_breaker (CircuitBreaker.init 5 60) [1, 2, 3, 4, 10] 10
    rfl (by decide) (by decide) (by decide)
  exact ⟨h.1, h.2.1, h.2.2.2.1 (by decide), h.2.2.2.2.1, h.2.2.2.2.2 1⟩

/-! ## call_llm retry loop (src/services/llm.py) -/

/-- The exception classes `call_llm` can see from an attempt, mirroring
`_is_retryable`'s `isinstance` tests: `openai.APIStatusError` with its
status code, `openai.APIConnectionError`, `openai.APITimeoutError`, and
anything else. -/
inductive LLMError where
  | apiStatus (code : Nat)
  | apiConnection
  | apiTimeout
  | otherExc
deriving DecidableEq, Repr

def RETRY_STATUS_CODES : List Nat := [429, 500, 502, 503]

def RETRY_DELAYS : List Nat := [2, 4, 8]

/-- `_is_retryable`. -/
def is_retryable : LLMError → Bool
  | .apiStatus code => RETRY_STATUS_CODES.contains code
  | .apiConnection => true
  | .apiTimeout => true
  | .otherExc => false

/-- What one upstream attempt (`client.chat.completions.create`) does:
return a response content with some latency, or raise. -/
inductive LLMOutcome where
  | success (content : String) (latency : ℚ)
  | failure (e : LLMError)

/-- Result of `call_llm`: the returned content or raised error
(`circuitOpen` embeds the distinct `RuntimeError` raised on fail-fast,
`upstreamErr` a propagated upstream exception). -/
inductive CallValue where
  | ok (content : String)
  | circuitOpen
  | upstreamErr (e : LLMError)
deriving DecidableEq, Repr

/-- Observable outcome of a `call_llm` invocation: the value, the breaker
state afterwards, how many times `record_success` / `record_failure` were
called, how many upstream attempts were made, and the backoff sleeps
performed. -/
structure CallResult where
  value : CallValue
  breaker : CircuitBreaker
  success_calls : Nat
  failure_calls : Nat
  attempts : Nat
  sleeps : List Nat
deriving DecidableEq, Repr

/-- The `for attempt in range(len(RETRY_DELAYS) + 1)` loop of `call_llm`.
`delays` is the not-yet-consumed suffix of `RETRY_DELAYS`, so the Python
guard `attempt < len(RETRY_DELAYS)` is exactly `delays ≠ []` and the delay
slept is its head.  `now` advances by each sleep (attempt durations are not
modelled; they only shift the timestamp passed to `record_failure`). -/
def call_llm_go (upstream : Nat → LLMOutcome) : List Nat → Nat → ℚ → CircuitBreaker →
    Nat → List Nat → CallResult
  | delays, attempt, now, cb, done, slept =>
    match upstream attempt with
    | .success content latency =>
        ⟨.ok content, cb.record_success latency, 1, 0, done + 1, slept⟩
    | .failure e =>
        match delays with
        | d :: rest =>
            if is_retryable e then
              call_llm_go upstream rest (attempt + 1) (now + d) cb (done + 1)
                (slept ++ [d])
            else
              ⟨.upstreamErr e, cb.record_failure now, 0, 1, done + 1, slept⟩
        | [] => ⟨.upstreamErr e, cb.record_failure now, 0, 1, done + 1, slept⟩

/-- `call_llm`: fail fast without touching the breaker if the circuit is
open, otherwise run the retry loop. -/
def call_llm (cb : CircuitBreaker) (now : ℚ) (upstream : Nat → LLMOutcome) : CallResult :=
  if cb.is_open now then ⟨.circuitOpen, cb, 0, 0, 0, []⟩
  else call_llm_go upstream RETRY_DELAYS 0 now cb 0 []

/-- C5: when the circuit is open, `call_llm` raises the distinct
circuit-open error before any upstream attempt: zero attempts, zero
sleeps, no `record_success` or `record_failure` call, and the breaker
state is returned unchanged. -/
theorem C5_circuit_open_fail_fast (cb : CircuitBreaker) (now : ℚ)
    (upstream : Nat → LLMOutcome) (h : cb.is_open now = true) :
    call_llm cb now upstream
      = ⟨CallValue.circuitOpen, cb, 0, 0, 0, []⟩ := by
  simp [call_llm, h]

/-- C5 witness: a breaker open until time 100, queried at time 50. -/
theorem C5_circuit_open_fail_fast_witness :
    call_llm (CircuitBreaker.mk 5 5 60 100 7 5 []) 50 (fun _ => LLMOutcome.failure LLMError.otherExc)
      = ⟨CallValue.circuitOpen, CircuitBreaker.mk 5 5 60 100 7 5 [], 0, 0, 0, []⟩ :=
  C5_circuit_open_fail_fast (CircuitBreaker.mk 5 5 60 100 7 5 []) 50
    (fun _ => LLMOutcome.failure LLMError.otherExc) (by decide)

/-- C6: with the circuit closed, (i) an upstream failing with HTTP 429 on
the first two attempts and succeeding on the third makes `call_llm` return
the success content, call `record_success` exactly once and `record_failure`
never (three attempts, backoff sleeps 2 s and 4 s); (ii) a first-attempt
failure that is not retryable (not a connection error, timeout, or status
429/500/502/503) propagates immediately — one attempt, no sleeps — with
`record_failure` called exactly once. -/
theorem C6_retry_and_no_retry (cb : CircuitBreaker) (now : ℚ)
    (upstream : Nat → LLMOutcome) (hclosed : cb.is_open now = false) :
    (∀ content latency,
      upstream 0 = LLMOutcome.failure (LLMError.apiStatus 429) →
      upstream 1 = LLMOutcome.failure (LLMError.apiStatus 429) →
      upstream 2 = LLMOutcome.success content latency →
      call_llm cb now upstream
        = ⟨CallValue.ok content, cb.record_success latency, 1, 0, 3, [2, 4]⟩) ∧
    (∀ e, is_retryable e = false →
      upstream 0 = LLMOutcome.failure e →
      call_llm cb now upstream
        = ⟨CallValue.upstreamErr e, cb.record_failure now, 0, 1, 1, []⟩) := by
  constructor
  · intro content latency h0 h1 h2
    simp [call_llm, hclosed, RETRY_DELAYS, call_llm_go, h0, h1, h2,
      is_retryable, RETRY_STATUS_CODES]
  · intro e he h0
    simp [call_llm, hclosed, RETRY_DELAYS, call_llm_go, h0, he]

/-- C6 witness: a closed default breaker at time 0, one upstream failing
twice with 429 then succeeding, and one failing with a non-retryable 404. -/
theorem C6_retry_and_no_retry_witness :
    call_llm (CircuitBreaker.init 5 60) 0
        (fun n => if n = 2 then LLMOutcome.success "ok" 1
                  else LLMOutcome.failure (LLMError.apiStatus 429))
      = ⟨CallValue.ok "ok", (CircuitBreaker.init 5 60).record_success 1, 1, 0, 3, [2, 4]⟩ ∧
    call_llm (CircuitBreaker.init 5 60) 0
        (fun _ => LLMOutcome.failure (LLMError.apiStatus 404))
      = ⟨CallValue.upstreamErr (LLMError.apiStatus 404),
          (CircuitBreaker.init 5 60).record_failure 0, 0, 1, 1, []⟩ := by
  constructor
  · exact (C6_retry_and_no_retry (CircuitBreaker.init 5 60) 0 _ (by decide)).1
      "ok" 1 rfl rfl rfl
  · exact (C6_retry_and_no_retry (CircuitBreaker.init 5 60) 0 _ (by decide)).2
      (LLMError.apiStatus 404) (by decide) rfl

/-! ## Job status store (src/db.py) -/

/-- One row of the `job_status` table, keyed by `id`.  `unixepoch()`
timestamps are embedded as `Int`. -/
structure JobRecord where
  kind : String
  status : String
  message : String
  repo_id : Option String
  result : Option String
  created_at : Int
  updated_at : Int
deriving DecidableEq, Repr

/-- The `job_status` table: rows keyed by job id. -/
abbrev JobTable := List (String × JobRecord)

/-- `INSERT OR REPLACE` of a full row (a column not named in the insert —
here `result` — becomes NULL in the replaced row). -/
def table_set (t : JobTable) (id : String) (r : JobRecord) : JobTable :=
  if (List.lookup id t).isSome then
    t.map (fun p => if p.1 == id then (p.1, r) else p)
  else t ++ [(id, r)]

/-- `create_job(job_id, kind, repo_id=None, status="queued",
message="Starting...")`: idempotent upsert with both timestamps set to
`unixepoch()` and `result` left NULL. -/
def create_job (t : JobTable) (now : Int) (job_id kind : String)
    (repo_id : Option String) (status message : String) : JobTable :=
  table_set t job_id
    { kind := kind, status := status, message := message, repo_id := repo_id,
      result := none, created_at := now, updated_at := now }

/-- `update_job(job_id, status=None, message=None, result=None)`: the SQL
`UPDATE` sets exactly the supplied columns plus `updated_at=unixepoch()`
on the row matching `id` (a no-op when no row matches). -/
def patch_row (now : Int) (status message result : Option String)
    (r : JobRecord) : JobRecord :=
  { r with status := status.getD r.status,
           message := message.getD r.message,
           result := result.or r.result,
           updated_at := now }

def update_job (t : JobTable) (now : Int) (job_id : String)
    (status message result : Option String) : JobTable :=
  t.map (fun p =>
    if p.1 == job_id then (p.1, patch_row now status message result p.2) else p)

/-- `get_job(job_id)`: the row as a dict, or None. -/
def get_job (t : JobTable) (job_id : String) : Option JobRecord :=
  List.lookup job_id t

theorem lookup_map_patch {β : Type} (t : List (String × β)) (id : String)
    (f : β → β) :
    List.lookup id (t.map (fun p => if p.1 == id then (p.1, f p.2) else p))
      = (List.lookup id t).map f := by
  induction t with
  | nil => simp
  | cons p rest ih =>
      simp only [beq_iff_eq] at ih
      by_cases hp : p.1 = id
      · have hb : (p.1 == id) = true := beq_iff_eq.mpr hp
        have hb' : (id == p.1) = true := beq_iff_eq.mpr hp.symm
        simp only [List.map_cons]
        rw [if_pos hb]
        simp [List.lookup, hb']
      · have hb : (p.1 == id) = false := beq_eq_false_iff_ne.mpr hp
        have hb' : (id == p.1) = false := beq_eq_false_iff_ne.mpr (Ne.symm hp)
        simp only [List.map_cons]
        rw [if_neg (by simp [hb])]
        simp [List.lookup, hb', ih]

theorem lookup_map_patch_ne {β : Type} (t : List (String × β)) (id other : String)
    (h : other ≠ id) (f : β → β) :
    List.lookup other (t.map (fun p => if p.1 == id then (p.1, f p.2) else p))
      = List.lookup other t := by
  induction t with
  | nil => simp
  | cons p rest ih =>
      simp only [beq_iff_eq] at ih
      by_cases hp : p.1 = id
      · have hb : (p.1 == id) = true := beq_iff_eq.mpr hp
        have hno : (other == p.1) = false :=
          beq_eq_false_iff_ne.mpr (fun hop => h (hop.trans hp))
        simp only [List.map_cons]
        rw [if_pos hb]
        simp [List.lookup, hno, ih]
      · have hb : (p.1 == id) = false := beq_eq_false_iff_ne.mpr hp
        simp only [List.map_cons]
        rw [if_neg (by simp [hb])]
        by_cases ho : other = p.1
        · have hyes : (other == p.1) = true := beq_iff_eq.mpr ho
          simp [List.lookup, hyes]
        · have hno : (other == p.1) = false := beq_eq_false_iff_ne.mpr ho
          simp [List.lookup, hno, ih]

theorem lookup_append_of_none {α β : Type} [BEq α] (l₁ l₂ : List (α × β))
    (a : α) (h : List.lookup a l₁ = none) :
    List.lookup a (l₁ ++ l₂) = List.lookup a l₂ := by
  induction l₁ with
  | nil => simp
  | cons p rest ih =>
      by_cases hp : (a == p.1) = true
      · simp [List.lookup, hp] at h
      · simp only [Bool.not_eq_true] at hp
        simp [List.lookup, hp] at h ⊢
        exact ih h

theorem get_job_table_set_self (t : JobTable) (id : String) (r : JobRecord) :
    get_job (table_set t id r) id = some r := by
  unfold get_job table_set
  by_cases hs : (List.lookup id t).isSome
  · rw [if_pos hs, lookup_map_patch t id (fun _ => r)]
    obtain ⟨v, hv⟩ := Option.isSome_iff_exists.mp hs
    rw [hv]
    rfl
  · rw [if_neg hs]
    rw [lookup_append_of_none t [(id, r)] id (Option.not_isSome_iff_eq_none.mp hs)]
    simp [List.lookup]

/-- C7: `update_job` patches exactly the supplied fields of the addressed
row — `kind`, `repo_id` and `created_at` are untouched, unsupplied fields
keep their values, `updated_at` is always bumped — and leaves every other
row unchanged; consequently `create(id,"ingest")`, `update(status:=
"running")`, `update(message:="50%")`, `get(id)` shows both the status set
by the first update and the message set by the second. -/
theorem C7_update_job_partial_fields :
    (∀ (t : JobTable) (now : Int) (id : String) (st ms rs : Option String)
        (r : JobRecord), get_job t id = some r →
      get_job (update_job t now id st ms rs) id
        = some { kind := r.kind, status := st.getD r.status,
                 message := ms.getD r.message, repo_id := r.repo_id,
                 result := rs.or r.result, created_at := r.created_at,
                 updated_at := now }) ∧
    (∀ (t : JobTable) (now : Int) (id other : String) (st ms rs : Option String),
      other ≠ id →
      get_job (update_job t now id st ms rs) other = get_job t other) ∧
    (∀ (t : JobTable) (n₁ n₂ n₃ : Int) (id : String),
      get_job (update_job (update_job
          (create_job t n₁ id "ingest" none "queued" "Starting...")
          n₂ id (some "running") none none) n₃ id none (some "50%") none) id
        = some { kind := "ingest", status := "running", message := "50%",
                 repo_id := none, result := none, created_at := n₁,
                 updated_at := n₃ }) := by
  have hupd : ∀ (t : JobTable) (now : Int) (id : String) (st ms rs : Option String)
      (r : JobRecord), get_job t id = some r →
      get_job (update_job t now id st ms rs) id
        = some { kind := r.kind, status := st.getD r.status,
                 message := ms.getD r.message, repo_id := r.repo_id,
                 result := rs.or r.result, created_at := r.created_at,
                 updated_at := now } := by
    intro t now id st ms rs r hr
    unfold get_job update_job
    rw [lookup_map_patch]
    unfold get_job at hr
    rw [hr]
    rfl
  refine ⟨hupd, ?_, ?_⟩
  · intro t now id other st ms rs h
    exact lookup_map_patch_ne t id other h _
  · intro t n₁ n₂ n₃ id
    have h₀ := get_job_table_set_self t id
      { kind := "ingest", status := "queued", message := "Starting...",
        repo_id := none, result := none, created_at := n₁, updated_at := n₁ }
    have h₁ := hupd _ n₂ id (some "running") none none _ h₀
    have h₂ := hupd _ n₃ id none (some "50%") none _ h₁
    exact h₂

/-- C7 witness: the create/update/update/get sequence on an empty table at
times 1, 2, 3. -/
theorem C7_update_job_partial_fields_witness :
    get_job (update_job (update_job
        (create_job [] 1 "j1" "ingest" none "queued" "Starting...")
        2 "j1" (some "running") none none) 3 "j1" none (some "50%") none) "j1"
      = some { kind := "ingest", status := "running", message := "50%",
               repo_id := none, result := none, created_at := 1,
               updated_at := 3 } :=
  C7_update_job_partial_fields.2.2 [] 1 2 3 "j1"

/-! ## Per-IP limits (src/concurrency.py) -/

/-- A per-IP counter dict (`_ip_sse_counts` / `_ip_ingest_counts`).  Python
dict semantics: updating an existing key keeps its slot, a new key is
appended, `pop` removes it. -/
abbrev IPCounts := List (String × Int)

/-- `d.get(ip, dft)`. -/
def dict_get (d : IPCounts) (ip : String) (dft : Int) : Int :=
  (List.lookup ip d).getD dft

/-- `d[ip] = v`. -/
def dict_set (d : IPCounts) (ip : String) (v : Int) : IPCounts :=
  if (List.lookup ip d).isSome then
    d.map (fun p => if p.1 == ip then (p.1, v) else p)
  else d ++ [(ip, v)]

/-- `d.pop(ip, None)`. -/
def dict_pop (d : IPCounts) (ip : String) : IPCounts :=
  d.filter (fun p => !(p.1 == ip))

def MAX_SSE_PER_IP : Int := 3

def MAX_INGEST_PER_IP : Int := 2

/-- `IPLimitContext`: the counter dict it points at is passed explicitly
to `try_acquire`/`release` (in Python it is shared module state). -/
structure IPLimitContext where
  ip : String
  max_count : Int
  acquired : Bool
deriving DecidableEq, Repr

/-- `IPLimitContext.try_acquire`: non-blocking admission test. -/
def IPLimitContext.try_acquire (d : IPCounts) (ctx : IPLimitContext) :
    Bool × IPCounts × IPLimitContext :=
  let current := dict_get d ctx.ip 0
  if current ≥ ctx.max_count then (false, d, ctx)
  else (true, dict_set d ctx.ip (current + 1), { ctx with acquired := true })

/-- `IPLimitContext.release`: only acts when this context holds a slot;
drops the entry entirely when the count would reach zero. -/
def IPLimitContext.release (d : IPCounts) (ctx : IPLimitContext) :
    IPCounts × IPLimitContext :=
  if ctx.acquired then
    let current := dict_get d ctx.ip 1
    if current ≤ 1 then (dict_pop d ctx.ip, { ctx with acquired := false })
    else (dict_set d ctx.ip (current - 1), { ctx with acquired := false })
  else (d, ctx)

/-- `acquire_ingest`/`acquire_sse` build a fresh context per call; this
iterates `n` such calls for one ip, collecting the returned booleans and
the evolving counter dict. -/
def acquire_iter (ip : String) (cap : Int) : Nat → List Bool × IPCounts
  | 0 => ([], [])
  | n + 1 =>
      let prev := acquire_iter ip cap n
      let r := IPLimitContext.try_acquire prev.2 ⟨ip, cap, false⟩
      (prev.1 ++ [r.1], r.2.1)

theorem lookup_self_single (ip : String) (v : Int) :
    List.lookup ip [(ip, v)] = some v := by
  simp [List.lookup]

theorem acquire_iter_eq (ip : String) (cap : Int) (n : Nat) (h : (n : Int) ≤ cap) :
    acquire_iter ip cap n
      = (List.replicate n true, if n = 0 then [] else [(ip, (n : Int))]) := by
  induction n with
  | zero => simp [acquire_iter]
  | succ m ih =>
      have hm : (m : Int) ≤ cap := by push_cast at h ⊢; omega
      have hlt : ¬ ((m : Int) ≥ cap) := by push_cast at h; omega
      rw [acquire_iter, ih hm]
      match m with
      | 0 =>
          have hc : ¬ cap ≤ 0 := by push_cast at hlt; omega
          simp only [if_pos rfl]
          simp [IPLimitContext.try_acquire, dict_get, dict_set, List.lookup,
            hc, List.replicate]
      | k + 1 =>
          simp only [if_neg (Nat.succ_ne_zero k)]
          have hget : dict_get [(ip, ((k + 1 : Nat) : Int))] ip 0 = ((k + 1 : Nat) : Int) := by
            simp [dict_get, lookup_self_single]
          simp only [IPLimitContext.try_acquire, hget, if_neg hlt]
          simp only [Prod.mk.injEq]
          constructor
          · simp [List.replicate_succ']
          · simp only [if_neg (Nat.succ_ne_zero (k + 1))]
            simp [dict_set, lookup_self_single]

theorem lookup_dict_pop_self (d : IPCounts) (ip : String) :
    List.lookup ip (dict_pop d ip) = none := by
  induction d with
  | nil => simp [dict_pop]
  | cons p rest ih =>
      by_cases hp : p.1 = ip
      · have hb : (p.1 == ip) = true := beq_iff_eq.mpr hp
        simpa [dict_pop, hb] using ih
      · have hb : (p.1 == ip) = false := beq_eq_false_iff_ne.mpr hp
        have hb' : (ip == p.1) = false := beq_eq_false_iff_ne.mpr (Ne.symm hp)
        simpa [dict_pop, hb, hb', List.lookup] using ih

theorem lookup_of_mem_value {β : Type} (d : List (String × β)) (a : String) (v : β)
    (h : List.lookup a d = some v) : ∃ k, (k, v) ∈ d := by
  induction d with
  | nil => simp [List.lookup] at h
  | cons p rest ih =>
      by_cases hp : (a == p.1) = true
      · simp [List.lookup, hp] at h
        exact ⟨p.1, by simp [← h]⟩
      · simp only [Bool.not_eq_true] at hp
        simp [List.lookup, hp] at h
        obtain ⟨k, hk⟩ := ih h
        exact ⟨k, List.mem_cons_of_mem p hk⟩

theorem mem_dict_set {d : IPCounts} {ip : String} {v : Int} {p : String × Int}
    (h : p ∈ dict_set d ip v) : p ∈ d ∨ p.2 = v := by
  unfold dict_set at h
  by_cases hs : (List.lookup ip d).isSome
  · rw [if_pos hs] at h
    obtain ⟨q, hq, hqe⟩ := List.mem_map.mp h
    by_cases hqi : (q.1 == ip) = true
    · rw [if_pos hqi] at hqe
      right
      rw [← hqe]
    · simp only [Bool.not_eq_true] at hqi
      rw [if_neg (by simp [hqi])] at hqe
      left
      rw [← hqe]
      exact hq
  · rw [if_neg hs] at h
    rcases List.mem_append.mp h with hm | hm
    · left; exact hm
    · right
      simp only [List.mem_singleton] at hm
      rw [hm]

/-- C8: per-IP limiter with cap `N ≥ 1`, starting from an absent entry:
`N` successive `try_acquire` calls (each on a fresh context, as
`acquire_ingest`/`acquire_sse` do) all return true, leaving the count at
`N`; the `(N+1)`-th returns false and changes neither the dict nor the
context; one `release` by a holder decrements the count — deleting the
entry entirely when it reaches zero — and the next `try_acquire` then
succeeds. -/
theorem C8_ip_limiter_cap (ip : String) (N : Nat) (hN : 1 ≤ N) :
    acquire_iter ip (N : Int) N = (List.replicate N true, [(ip, (N : Int))]) ∧
    IPLimitContext.try_acquire [(ip, (N : Int))] ⟨ip, (N : Int), false⟩
      = (false, [(ip, (N : Int))], ⟨ip, (N : Int), false⟩) ∧
    (IPLimitContext.release [(ip, (N : Int))] ⟨ip, (N : Int), true⟩).1
      = (if N = 1 then [] else [(ip, (N : Int) - 1)]) ∧
    (IPLimitContext.try_acquire (if N = 1 then [] else [(ip, (N : Int) - 1)])
      ⟨ip, (N : Int), false⟩).1 = true := by
  have hget : dict_get [(ip, (N : Int))] ip 0 = (N : Int) := by
    simp [dict_get, lookup_self_single]
  have hget1 : dict_get [(ip, (N : Int))] ip 1 = (N : Int) := by
    simp [dict_get, lookup_self_single]
  refine ⟨?_, ?_, ?_, ?_⟩
  · have h := acquire_iter_eq ip (N : Int) N le_rfl
    rwa [if_neg (by omega)] at h
  · simp [IPLimitContext.try_acquire, hget]
  · simp only [IPLimitContext.release, if_pos rfl, hget1]
    by_cases h1 : N = 1
    · subst h1
      simp [dict_pop, List.lookup]
    · have h2 : ¬ ((N : Int) ≤ 1) := by omega
      rw [if_neg h2, if_neg h1]
      simp [dict_set, lookup_self_single]
  · by_cases h1 : N = 1
    · subst h1
      simp [IPLimitContext.try_acquire, dict_get, List.lookup]
    · rw [if_neg h1]
      have hgetm : dict_get [(ip, (N : Int) - 1)] ip 0 = (N : Int) - 1 := by
        simp [dict_get, lookup_self_single]
      have hlt : ¬ ((N : Int) - 1 ≥ (N : Int)) := by omega
      simp [IPLimitContext.try_acquire, hgetm, hlt]

/-- C8 witness: the ingest cap of 2 on ip `1.2.3.4`: true, true, false,
one release, then true again. -/
theorem C8_ip_limiter_cap_witness :
    acquire_iter "1.2.3.4" MAX_INGEST_PER_IP 2
      = ([true, true], [("1.2.3.4", 2)]) ∧
    (IPLimitContext.try_acquire [("1.2.3.4", 2)] ⟨"1.2.3.4", MAX_INGEST_PER_IP, false⟩).1
      = false ∧
    (IPLimitContext.release [("1.2.3.4", 2)] ⟨"1.2.3.4", MAX_INGEST_PER_IP, true⟩).1
      = [("1.2.3.4", 1)] ∧
    (IPLimitContext.try_acquire [("1.2.3.4", 1)] ⟨"1.2.3.4", MAX_INGEST_PER_IP, false⟩).1
      = true := by
  have h := C8_ip_limiter_cap "1.2.3.4" 2 (by decide)
  refine ⟨?_, ?_, ?_, ?_⟩
  · have h1 := h.1
    simpa [MAX_INGEST_PER_IP] using h1
  · have h2 := h.2.1
    rw [Prod.ext_iff] at h2
    simpa [MAX_INGEST_PER_IP] using h2.1
  · have h3 := h.2.2.1
    rw [if_neg (by decide)] at h3
    simpa [MAX_INGEST_PER_IP] using h3
  · have h4 := h.2.2.2
    rw [if_neg (by decide)] at h4
    simpa [MAX_INGEST_PER_IP] using h4

/-- C10: `release` is idempotent per context and safe when nothing is
held: releasing a non-holding context changes nothing; any release leaves
the context non-holding, so a second release of the same context is a
no-op; a failed `try_acquire` changes nothing (and leaves the context
non-holding); a release by a holder decrements the entry (removing it
when the count reaches zero); and if every count in the table is at least
1 — true of every table these operations build — both operations keep
every count at least 1, so no per-IP count ever becomes negative. -/
theorem C10_release_idempotent_safe :
    (∀ (d : IPCounts) (c : IPLimitContext), c.acquired = false →
      IPLimitContext.release d c = (d, c)) ∧
    (∀ (d : IPCounts) (c : IPLimitContext),
      (IPLimitContext.release d c).2.acquired = false) ∧
    (∀ (d : IPCounts) (c : IPLimitContext),
      IPLimitContext.release (IPLimitContext.release d c).1
          (IPLimitContext.release d c).2
        = IPLimitContext.release d c) ∧
    (∀ (d : IPCounts) (c : IPLimitContext),
      (IPLimitContext.try_acquire d c).1 = false →
      IPLimitContext.try_acquire d c = (false, d, c)) ∧
    (∀ (d : IPCounts) (c : IPLimitContext) (v : Int), c.acquired = true →
      List.lookup c.ip d = some v →
      (2 ≤ v → List.lookup c.ip (IPLimitContext.release d c).1 = some (v - 1)) ∧
      (v ≤ 1 → List.lookup c.ip (IPLimitContext.release d c).1 = none)) ∧
    (∀ (d : IPCounts) (c : IPLimitContext), (∀ p ∈ d, 1 ≤ p.2) →
      (∀ p ∈ (IPLimitContext.try_acquire d c).2.1, 1 ≤ p.2) ∧
      (∀ p ∈ (IPLimitContext.release d c).1, 1 ≤ p.2)) := by
  have hrel_none : ∀ (d : IPCounts) (c : IPLimitContext), c.acquired = false →
      IPLimitContext.release d c = (d, c) := by
    intro d c hc
    simp [IPLimitContext.release, hc]
  have hrel_acq : ∀ (d : IPCounts) (c : IPLimitContext),
      (IPLimitContext.release d c).2.acquired = false := by
    intro d c
    by_cases hc : c.acquired
    · by_cases hcur : dict_get d c.ip 1 ≤ 1 <;>
        simp [IPLimitContext.release, hc, hcur]
    · simp only [Bool.not_eq_true] at hc
      simp [IPLimitContext.release, hc]
  refine ⟨hrel_none, hrel_acq, ?_, ?_, ?_, ?_⟩
  · intro d c
    exact hrel_none _ _ (hrel_acq d c)
  · intro d c h
    by_cases hcur : dict_get d c.ip 0 ≥ c.max_count
    · simp [IPLimitContext.try_acquire, hcur]
    · simp [IPLimitContext.try_acquire, hcur] at h
  · intro d c v hc hv
    have hcur : dict_get d c.ip 1 = v := by simp [dict_get, hv]
    constructor
    · intro h2
      have hle : ¬ (dict_get d c.ip 1 ≤ 1) := by omega
      simp only [IPLimitContext.release, hc, if_pos rfl, if_neg hle]
      show List.lookup c.ip (dict_set d c.ip (dict_get d c.ip 1 - 1)) = some (v - 1)
      rw [hcur]
      unfold dict_set
      rw [if_pos (by simp [hv])]
      rw [lookup_map_patch d c.ip (fun _ => v - 1), hv]
      rfl
    · intro h1
      have hle : dict_get d c.ip 1 ≤ 1 := by omega
      simp only [IPLimitContext.release, hc, if_pos rfl, if_pos hle]
      exact lookup_dict_pop_self d c.ip
  · intro d c hinv
    constructor
    · by_cases hcur : dict_get d c.ip 0 ≥ c.max_count
      · simp only [IPLimitContext.try_acquire, if_pos hcur]
        exact hinv
      · simp only [IPLimitContext.try_acquire, if_neg hcur]
        intro p hp
        rcases mem_dict_set hp with hm | hm
        · exact hinv p hm
        · rw [hm]
          rcases he : List.lookup c.ip d with _ | v
          · simp [dict_get, he]
          · obtain ⟨k, hk⟩ := lookup_of_mem_value d c.ip v he
            have := hinv (k, v) hk
            simp only at this
            simp [dict_get, he]
            omega
    · by_cases hc : c.acquired
      · by_cases hle : dict_get d c.ip 1 ≤ 1
        · simp only [IPLimitContext.release, hc, if_pos rfl, if_pos hle]
          intro p hp
          exact hinv p (List.mem_filter.mp hp).1
        · simp only [IPLimitContext.release, hc, if_pos rfl, if_neg hle]
          intro p hp
          rcases mem_dict_set hp with hm | hm
          · exact hinv p hm
          · rw [hm]
            omega
      · simp only [Bool.not_eq_true] at hc
        simp only [IPLimitContext.release, hc, Bool.false_eq_true, if_false]
        exact hinv

/-- C10 witness: a context that never acquired releases twice over the
table `[("ip1", 1)]` without changing it; a failed acquire at cap 0 also
changes nothing; and on a table with counts ≥ 1 the operations keep
counts ≥ 1. -/
theorem C10_release_idempotent_safe_witness :
    IPLimitContext.release [("ip1", 1)] ⟨"ip1", 2, false⟩
      = ([("ip1", 1)], ⟨"ip1", 2, false⟩) ∧
    IPLimitContext.try_acquire [("ip1", 1)] ⟨"ip2", 0, false⟩
      = (false, [("ip1", 1)], ⟨"ip2", 0, false⟩) ∧
    List.lookup "ip1" (IPLimitContext.release [("ip1", 2)] ⟨"ip1", 2, true⟩).1
      = some 1 ∧
    List.lookup "ip1" (IPLimitContext.release [("ip1", 1)] ⟨"ip1", 2, true⟩).1
      = none ∧
    (∀ p ∈ (IPLimitContext.try_acquire [("ip1", 1)] ⟨"ip1", 2, false⟩).2.1,
      1 ≤ p.2) := by
  refine ⟨?_, ?_, ?_, ?_, ?_⟩
  · exact C10_release_idempotent_safe.1 [("ip1", 1)] ⟨"ip1", 2, false⟩ rfl
  · exact C10_release_idempotent_safe.2.2.2.1 [("ip1", 1)] ⟨"ip2", 0, false⟩
      (by decide)
  · have h := (C10_release_idempotent_safe.2.2.2.2.1 [("ip1", 2)]
      ⟨"ip1", 2, true⟩ 2 rfl (by decide)).1 (by decide)
    simpa using h
  · exact (C10_release_idempotent_safe.2.2.2.2.1 [("ip1", 1)]
      ⟨"ip1", 2, true⟩ 1 rfl (by decide)).2 (by decide)
  · exact (C10_release_idempotent_safe.2.2.2.2.2 [("ip1", 1)]
      ⟨"ip1", 2, false⟩ (by decide)).1

end RepoLM
